import Mathlib

/- Shallow embedding of the music-enricher core: discogs_search.py
   (clean_text, is_similar, extract_artist_parts, search_discogs_release),
   analyze_playlist.py (split_artists, the genre merge) and retry_utils.py
   (retry_with_backoff).  Characters are Lean Char; the ASCII fragments of
   Python's str.lower(), str.strip(), str.split() and the regex classes
   \w and \s are modelled explicitly below. -/

/-- ASCII whitespace as matched by Python's str.split(), str.strip() and the
regex class \s: space, tab, newline, carriage return, vertical tab, form feed. -/
def isSpaceChar (c : Char) : Bool :=
  decide (c.toNat = 32 ∨ c.toNat = 9 ∨ c.toNat = 10 ∨ c.toNat = 13 ∨
          c.toNat = 11 ∨ c.toNat = 12)

/-- ASCII word character as matched by the regex class \w: letters, digits and
the underscore. -/
def isWordChar (c : Char) : Bool :=
  decide ((48 ≤ c.toNat ∧ c.toNat ≤ 57) ∨ (65 ≤ c.toNat ∧ c.toNat ≤ 90) ∨
          (97 ≤ c.toNat ∧ c.toNat ≤ 122) ∨ c.toNat = 95)

/-- ASCII alphanumeric character (letters and digits, no underscore); used by
the spec-side normalizers. -/
def isAlphanumC (c : Char) : Bool :=
  decide ((48 ≤ c.toNat ∧ c.toNat ≤ 57) ∨ (65 ≤ c.toNat ∧ c.toNat ≤ 90) ∨
          (97 ≤ c.toNat ∧ c.toNat ≤ 122))

/-- Characters kept by clean_text's re.sub(r'[^\w\s]', '', text). -/
def keepChar (c : Char) : Bool := isWordChar c || isSpaceChar c

/-- Python str.strip(): drop leading and trailing whitespace. -/
def strip (l : List Char) : List Char :=
  ((l.dropWhile isSpaceChar).reverse.dropWhile isSpaceChar).reverse

/-- Helper for `words`: cur holds the current in-progress word, reversed. -/
def wordsAux (cur : List Char) : List Char → List (List Char)
  | [] => if cur.isEmpty then [] else [cur.reverse]
  | c :: cs =>
    if isSpaceChar c then
      if cur.isEmpty then wordsAux [] cs else cur.reverse :: wordsAux [] cs
    else wordsAux (c :: cur) cs

/-- Python str.split() with no argument: whitespace-separated words, empties
dropped. -/
def words (l : List Char) : List (List Char) := wordsAux [] l

/-- Python ' '.join(ws): join words with single spaces. -/
def joinWords : List (List Char) → List Char
  | [] => []
  | [w] => w
  | w :: ws => w ++ ' ' :: joinWords ws

/-- Spec-side helper: split at every whitespace character, keeping empty
chunks (so that dropping the empty chunks collapses whitespace runs). -/
def splitWS : List Char → List (List Char)
  | [] => [[]]
  | c :: cs => if isSpaceChar c then [] :: splitWS cs else (splitWS cs).modifyHead (c :: ·)

/-- List-level body of clean_text: the re.sub filter, whitespace collapsing
and lower-casing, in the order the source applies them. -/
def cleanList (l : List Char) : List Char :=
  (joinWords (words (l.filter keepChar))).map Char.toLower

/-- clean_text from discogs_search.py: remove special characters and normalize
whitespace, then lower-case. -/
def clean_text (s : String) : String :=
  if s = "" then "" else String.mk (cleanList s.data)

/-- Modelled from the spec (amended wording): strips every character that is
not alphanumeric, underscore or whitespace; collapses whitespace runs to
single spaces; lower-cases.  Written independently of clean_text. -/
def normalize_spec (s : String) : String :=
  String.mk (List.intercalate [' ']
    (((splitWS ((s.data.map Char.toLower).filter
        (fun c => isWordChar c || isSpaceChar c))).filter (fun w => !w.isEmpty))))

/-- The normalizer exactly as claim C8 words it: strips every character that
is not alphanumeric or whitespace (so the underscore is NOT kept). -/
def normalize_claimed (s : String) : String :=
  String.mk (List.intercalate [' ']
    (((splitWS ((s.data.map Char.toLower).filter
        (fun c => isAlphanumC c || isSpaceChar c))).filter (fun w => !w.isEmpty))))

/-- Length of the matching run at the heads of a and b (longest common
extension at one position pair). -/
def runLen : List Char → List Char → Nat
  | a :: as, b :: bs => if a = b then runLen as bs + 1 else 0
  | _, _ => 0

/-- difflib SequenceMatcher.find_longest_match over the full ranges: the scan
keeps the first (i, j) in iteration order that strictly improves the match
size, exactly as the j2len loop does with no junk elements. -/
def findBest (a b : List Char) : Nat × Nat × Nat :=
  (List.range a.length).foldl (fun best i =>
    (List.range b.length).foldl (fun best j =>
      if best.2.2 < runLen (a.drop i) (b.drop j) then (i, j, runLen (a.drop i) (b.drop j))
      else best) best) (0, 0, 0)

/-- Total size of all matching blocks (difflib get_matching_blocks), with
fuel; any fuel above the length of a suffices because every recursive call
strictly shrinks a. -/
def matchTotalF : Nat → List Char → List Char → Nat
  | 0, _, _ => 0
  | fuel + 1, a, b =>
    let r := findBest a b
    if r.2.2 = 0 then 0
    else matchTotalF fuel (a.take r.1) (b.take r.2.1) + r.2.2 +
         matchTotalF fuel (a.drop (r.1 + r.2.2)) (b.drop (r.2.1 + r.2.2))

/-- Total matched character count between a and b. -/
def matchTotal (a b : List Char) : Nat := matchTotalF (a.length + 1) a b

/-- difflib SequenceMatcher.ratio as an exact rational: 2*M/T, where T is the
sum of the lengths; T = 0 yields 1 (difflib's _calculate_ratio). -/
def ratioQ (a b : List Char) : ℚ :=
  if a.length + b.length = 0 then 1
  else mkRat (2 * (matchTotal a b : Int)) (a.length + b.length)

/-- is_similar from discogs_search.py: false when either raw input is falsy,
otherwise compare the ratio of the cleaned strings with the threshold. -/
def is_similar (str1 str2 : String) (threshold : ℚ) : Bool :=
  if str1 = "" || str2 = "" then false
  else decide (threshold ≤ ratioQ (clean_text str1).data (clean_text str2).data)

/-- Case-sensitive prefix test on character lists. -/
def startsWithL : List Char → List Char → Bool
  | [], _ => true
  | _ :: _, [] => false
  | p :: ps, c :: cs => decide (p = c) && startsWithL ps cs

/-- Python substring containment (needle in hay) for a fixed needle. -/
def containsSub (needle : List Char) : List Char → Bool
  | [] => needle.isEmpty
  | c :: cs => startsWithL needle (c :: cs) || containsSub needle cs

/-- Python str.split(sep) for a non-empty separator, with fuel (fuel at least
the length of the list suffices: every step consumes a character). -/
def splitOnSubF : Nat → List Char → List Char → List Char → List (List Char)
  | 0, _, cs, acc => [acc.reverse ++ cs]
  | _ + 1, _, [], acc => [acc.reverse]
  | fuel + 1, sep, c :: cs, acc =>
    if startsWithL sep (c :: cs) then
      acc.reverse :: splitOnSubF fuel sep ((c :: cs).drop sep.length) []
    else splitOnSubF fuel sep cs (c :: acc)

/-- Python str.split(sep). -/
def splitOnSub (sep l : List Char) : List (List Char) := splitOnSubF l.length sep l []

/-- Python str.replace(pat, '') for a non-empty pattern, with fuel. -/
def removeSubF : Nat → List Char → List Char → List Char
  | 0, _, cs => cs
  | _ + 1, _, [] => []
  | fuel + 1, pat, c :: cs =>
    if startsWithL pat (c :: cs) then removeSubF fuel pat ((c :: cs).drop pat.length)
    else c :: removeSubF fuel pat cs

/-- Python str.replace(pat, ''). -/
def removeSub (pat l : List Char) : List Char := removeSubF l.length pat l

/-- re.findall(r'\((.*?)\)', name): each match starts at the next '(' and
captures lazily up to the first following ')'; scanning resumes after it. -/
def findParensF : Nat → List Char → List (List Char)
  | 0, _ => []
  | _ + 1, [] => []
  | fuel + 1, c :: cs =>
    if c = '(' then
      match cs.dropWhile (fun d => !decide (d = ')')) with
      | [] => []
      | _ :: rest => cs.takeWhile (fun d => !decide (d = ')')) :: findParensF fuel rest
    else findParensF fuel cs

/-- re.findall(r'\((.*?)\)', name). -/
def findParens (l : List Char) : List (List Char) := findParensF l.length l

/-- Python str.lower() on a character list (ASCII model). -/
def lowerL (l : List Char) : List Char := l.map Char.toLower

/-- The stop-word set of extract_artist_parts. -/
def common_words : List (List Char) :=
  ["the", "a", "an", "and", "or", "but", "nor", "for", "yet"].map String.data

/-- Final comprehension of extract_artist_parts: drops falsy (empty) entries
and duplicates, preserving first-occurrence order (seen-set model). -/
def dedupPartsAux (seen : List (List Char)) : List (List Char) → List (List Char)
  | [] => []
  | x :: xs =>
    if x.isEmpty then dedupPartsAux seen xs
    else if x ∈ seen then dedupPartsAux seen xs
    else x :: dedupPartsAux (x :: seen) xs

/-- extract_artist_parts from discogs_search.py. -/
def extract_artist_parts (artist_name : String) : List String :=
  let name := artist_name.data
  let parts0 : List (List Char) := if name.isEmpty then [] else [name]
  let seps : List (List Char) := [[','], ['&'], "feat.".data, "ft.".data, "featuring".data]
  let parts1 := seps.foldl (fun parts sep =>
    if containsSub sep (lowerL name) then
      parts ++ ((splitOnSub sep name).map strip).filter (fun s => !s.isEmpty)
    else parts) parts0
  let parts2 := (findParens name).foldl (fun parts m =>
    let main_part := strip (removeSub ('(' :: m ++ [')']) name)
    let parts' := if main_part.isEmpty then parts else parts ++ [main_part]
    if m.isEmpty then parts'
    else parts' ++ ((splitOnSub [','] m).map strip).filter (fun s => !s.isEmpty)) parts1
  let parts3 :=
    match words name with
    | w :: _ :: _ => if lowerL w ∈ common_words then parts2 else parts2 ++ [w]
    | _ => parts2
  (dedupPartsAux [] parts3).map String.mk

/-- One step of the depth scan of split_artists: '(' increments, ')'
decrements clamped at zero, all other characters leave the depth unchanged. -/
def dstep (d : Int) (c : Char) : Int :=
  if c = '(' then d + 1 else if c = ')' then max (d - 1) 0 else d

/-- Parenthesis nesting depth after scanning l, as split_artists tracks it. -/
def depthClamped (l : List Char) : Int := l.foldl dstep 0

/-- Top-level comma pass of split_artists: split on commas only at depth
zero; buf accumulates the current segment, segments are stripped. -/
def splitTopAux : List Char → List Char → Int → List (List Char)
  | [], buf, _ => if (strip buf).isEmpty then [] else [strip buf]
  | c :: cs, buf, depth =>
    if c = '(' then splitTopAux cs (buf ++ [c]) (depth + 1)
    else if c = ')' then splitTopAux cs (buf ++ [c]) (max (depth - 1) 0)
    else if c = ',' ∧ depth = 0 then strip buf :: splitTopAux cs [] 0
    else splitTopAux cs (buf ++ [c]) depth

/-- A segment has no top-level comma: every comma in it sits at positive
clamped parenthesis depth, measured from the start of the segment. -/
def NoTopComma (s : List Char) : Prop :=
  ∀ u v, s = u ++ ',' :: v → 0 < depthClamped u

/-- Balanced parentheses: every prefix closes no more than it has opened and
the totals agree. -/
def balancedAux : Int → List Char → Bool
  | d, [] => decide (d = 0)
  | d, c :: cs =>
    if c = '(' then balancedAux (d + 1) cs
    else if c = ')' then decide (0 < d) && balancedAux (d - 1) cs
    else balancedAux d cs

/-- Balancedness of the parentheses of l. -/
def balancedB (l : List Char) : Bool := balancedAux 0 l

/-- Case-insensitive prefix test modelling re.I; the pattern is lower-case. -/
def startsWithCI : List Char → List Char → Bool
  | [], _ => true
  | _ :: _, [] => false
  | p :: ps, c :: cs => decide (Char.toLower c = p) && startsWithCI ps cs

/-- The alternatives of the separator regex (?:&|feat\.|ft\.|featuring), in
the order the alternation tries them. -/
def sepAlts : List (List Char) := [['&'], "feat.".data, "ft.".data, "featuring".data]

/-- Match one alternative at the head of cs, returning the remainder. -/
def tryAlt (cs : List Char) : Option (List Char) :=
  sepAlts.findSome? (fun alt => if startsWithCI alt cs then some (cs.drop alt.length) else none)

/-- Match the separator regex \s+(?:&|feat\.|ft\.|featuring)\s+ at the head
of cs (re.I, both \s+ greedy); returns the remainder after the match. -/
def matchSepAt (cs : List Char) : Option (List Char) :=
  if (cs.takeWhile isSpaceChar).isEmpty then none
  else
    match tryAlt (cs.dropWhile isSpaceChar) with
    | none => none
    | some rest2 =>
      if (rest2.takeWhile isSpaceChar).isEmpty then none
      else some (rest2.dropWhile isSpaceChar)

/-- re.split scan: at each position try the separator pattern; fuel at least
the length of the list suffices since every step consumes a character. -/
def splitSepAux : Nat → List Char → List Char → List (List Char)
  | 0, cs, acc => [acc.reverse ++ cs]
  | _ + 1, [], acc => [acc.reverse]
  | fuel + 1, c :: rest, acc =>
    match matchSepAt (c :: rest) with
    | some rest2 => acc.reverse :: splitSepAux fuel rest2 []
    | none => splitSepAux fuel rest (c :: acc)

/-- re.split(r"\s+(?:&|feat\.|ft\.|featuring)\s+", p, flags=re.I). -/
def splitReSep (l : List Char) : List (List Char) := splitSepAux l.length l []

/-- Second phase of split_artists: regex split each top-level segment, strip,
drop empties. -/
def splitSeps (p : List Char) : List (List Char) :=
  ((splitReSep p).map strip).filter (fun s => !s.isEmpty)

/-- split_artists from analyze_playlist.py. -/
def split_artists (raw : String) : List String :=
  if raw = "" then []
  else (((splitTopAux raw.data [] 0).map splitSeps).flatten).map String.mk

/-- One run of retry_with_backoff's loop: op gives the outcome of each
successive invocation of the wrapped function (indexed by attempt number);
retryable models membership in the configured exception tuple; the sleeping
and jitter are not modelled (pure time).  Returns the pair of the total
number of invocations made and the final outcome. -/
def retryGo {α ε : Type} (op : Nat → Except ε α) (retryable : ε → Bool) :
    Nat → Nat → Nat × Except ε α
  | attempt, remaining =>
    match op attempt with
    | .ok a => (attempt + 1, .ok a)
    | .error e =>
      if retryable e then
        match remaining with
        | 0 => (attempt + 1, .error e)
        | r + 1 => retryGo op retryable (attempt + 1) r
      else (attempt + 1, .error e)

/-- retry_with_backoff from retry_utils.py, with retry budget `retries`: the
loop increments retry_count on every caught retryable error and re-raises
once retry_count exceeds retries. -/
def retry_with_backoff {α ε : Type} (op : Nat → Except ε α) (retryable : ε → Bool)
    (retries : Nat) : Nat × Except ε α :=
  retryGo op retryable 0 retries

/-- Python list(dict.fromkeys(l)): deduplicate keeping the first occurrence
(seen-set model). -/
def dedupSeen (seen : List String) : List String → List String
  | [] => []
  | x :: xs => if x ∈ seen then dedupSeen seen xs else x :: dedupSeen (x :: seen) xs

/-- The genre merge of analyze_playlist.py (the spotify_genres.extend loop
followed by list(dict.fromkeys(spotify_genres))): concatenate the genre
lists of the consulted records in order, then dedup keeping first
occurrence. -/
def merge_genre_lists (lists : List (List String)) : List String :=
  dedupSeen [] (lists.foldl (fun acc g => acc ++ g) [])

/-- An artist record returned by the catalog (attribute .name). -/
structure DArtist where
  name : String

/-- A release record: genres/styles are Options, modelling the hasattr
checks of the source. -/
structure Release where
  title : String
  artists : List DArtist
  genres : Option (List String)
  styles : Option (List String)

/-- The catalog client: search gives the first page of releases (for
type='release', with a query and an artist argument) or artists (for
type='artist'); an Except.error models a raised exception. -/
structure Client where
  searchRelease : String → String → Except String (List Release)
  searchArtist : String → Except String (List DArtist)

/-- Strategy 1 loop of search_discogs_release: query (album_name, artist
part); accept the first returned release if its title is similar to the
album name or any of its artists is similar to the part. -/
def strategy1Loop (client : Client) (album_name : String) (threshold : ℚ) :
    List String → Option (List String × List String)
  | [] => none
  | part :: rest =>
    match client.searchRelease album_name part with
    | .error _ => strategy1Loop client album_name threshold rest
    | .ok [] => strategy1Loop client album_name threshold rest
    | .ok (rel :: _) =>
      if is_similar rel.title album_name threshold ||
         rel.artists.any (fun a => is_similar a.name part threshold) then
        some (rel.genres.getD [], rel.styles.getD [])
      else strategy1Loop client album_name threshold rest

/-- Strategy 2 loop: query (track_name, artist part); accept only if some
release artist is similar to the part. -/
def strategy2Loop (client : Client) (track_name : String) (threshold : ℚ) :
    List String → Option (List String × List String)
  | [] => none
  | part :: rest =>
    match client.searchRelease track_name part with
    | .error _ => strategy2Loop client track_name threshold rest
    | .ok [] => strategy2Loop client track_name threshold rest
    | .ok (rel :: _) =>
      if rel.artists.any (fun a => is_similar a.name part threshold) then
        some (rel.genres.getD [], rel.styles.getD [])
      else strategy2Loop client track_name threshold rest

/-- Strategy 3 loop: artist-index search; on a similar artist fetch their
releases with an empty query and accept the first one unconditionally. -/
def strategy3Loop (client : Client) (threshold : ℚ) :
    List String → Option (List String × List String)
  | [] => none
  | part :: rest =>
    match client.searchArtist part with
    | .error _ => strategy3Loop client threshold rest
    | .ok [] => strategy3Loop client threshold rest
    | .ok (art :: _) =>
      if is_similar art.name part threshold then
        match client.searchRelease "" art.name with
        | .error _ => strategy3Loop client threshold rest
        | .ok [] => strategy3Loop client threshold rest
        | .ok (rel :: _) => some (rel.genres.getD [], rel.styles.getD [])
      else strategy3Loop client threshold rest

/-- search_discogs_release from discogs_search.py: the three strategies in
order, the album one only when album_name is truthy; ([], []) on
exhaustion. -/
def search_discogs_release (client : Client) (track_name artist_name : String)
    (album_name : Option String) (threshold : ℚ) : List String × List String :=
  let r1 :=
    match album_name with
    | some al =>
      if al = "" then none
      else strategy1Loop client al threshold (extract_artist_parts artist_name)
    | none => none
  match r1 with
  | some r => r
  | none =>
    match strategy2Loop client track_name threshold (extract_artist_parts artist_name) with
    | some r => r
    | none =>
      match strategy3Loop client threshold (extract_artist_parts artist_name) with
      | some r => r
      | none => ([], [])

/-- Modelled from the spec: the cascading resolver exactly as claim C1 words
it, one findSome? over the prioritized candidates per strategy, strategies
chained in strict priority order, empty result on exhaustion. -/
def resolve_spec (client : Client) (track_name artist_name : String)
    (album_name : Option String) (threshold : ℚ) : List String × List String :=
  let cands := extract_artist_parts artist_name
  let albumAttempt := fun (al part : String) =>
    match client.searchRelease al part with
    | .ok (rel :: _) =>
      if is_similar rel.title al threshold ||
         rel.artists.any (fun a => is_similar a.name part threshold) then
        some (rel.genres.getD [], rel.styles.getD [])
      else none
    | _ => none
  let trackAttempt := fun (part : String) =>
    match client.searchRelease track_name part with
    | .ok (rel :: _) =>
      if rel.artists.any (fun a => is_similar a.name part threshold) then
        some (rel.genres.getD [], rel.styles.getD [])
      else none
    | _ => none
  let artistAttempt := fun (part : String) =>
    match client.searchArtist part with
    | .ok (art :: _) =>
      if is_similar art.name part threshold then
        match client.searchRelease "" art.name with
        | .ok (rel :: _) => some (rel.genres.getD [], rel.styles.getD [])
        | _ => none
      else none
    | _ => none
  let albumRes :=
    match album_name with
    | some al => if al = "" then none else cands.findSome? (albumAttempt al)
    | none => none
  ((albumRes.orElse (fun _ => cands.findSome? trackAttempt)).orElse
    (fun _ => cands.findSome? artistAttempt)).getD ([], [])

/-- Replace every raising call of a client by one returning no results. -/
def errorsToEmpty (c : Client) : Client :=
  { searchRelease := fun q a =>
      match c.searchRelease q a with
      | .error _ => .ok []
      | .ok rs => .ok rs
    searchArtist := fun q =>
      match c.searchArtist q with
      | .error _ => .ok []
      | .ok as => .ok as }

/-- A client whose every call raises. -/
def failClient : Client :=
  { searchRelease := fun _ _ => .error "boom", searchArtist := fun _ => .error "boom" }

/-- A client whose every call returns no results. -/
def emptyClient : Client :=
  { searchRelease := fun _ _ => .ok [], searchArtist := fun _ => .ok [] }

/-- The cross-source genre merge of analyze_playlist.py line 264:
all_genres = list(set(spotify_genres + discogs_genres)).  A CPython set
retains exactly the membership of its input and no ordering (its iteration
order is unspecified and varies with hash randomization), so the faithful
deterministic content of this expression is the finite set of contributed
strings. -/
def all_genres_merge (spotify_genres discogs_genres : List String) : Finset String :=
  (spotify_genres ++ discogs_genres).toFinset

/-- Unicode-extended word class: Python's \w matches every Unicode
alphanumeric, in particular U+0130 (LATIN CAPITAL LETTER I WITH DOT ABOVE);
the combining mark U+0307 is not alphanumeric and stays excluded.  This
extends the ASCII fragment `isWordChar` by the code points relevant to the
idempotence question. -/
def isWordCharU (c : Char) : Bool := isWordChar c || decide (c.toNat = 304)

/-- Characters kept by re.sub(r'[^\w\s]', '', text) in the extended
fragment. -/
def keepCharU (c : Char) : Bool := isWordCharU c || isSpaceChar c

/-- Python str.lower() as a character-to-string mapping: the full Unicode
case mapping is one-to-many; in particular lower('İ') (U+0130) is the two
characters "i" ++ U+0307.  ASCII characters map by the ASCII rule. -/
def lowerStr (c : Char) : List Char :=
  if c.toNat = 304 then ['i', Char.ofNat 775] else [Char.toLower c]

/-- clean_text in the Unicode-extended fragment: same pipeline as cleanList
(re.sub filter, whitespace collapse, then str.lower() on the joined
string), with the extended word class and the one-to-many case mapping. -/
def cleanListU (l : List Char) : List Char :=
  ((joinWords (words (l.filter keepCharU))).map lowerStr).flatten

/-- clean_text from discogs_search.py over the Unicode-extended character
fragment; it agrees with clean_text on ASCII input and exhibits the
program's behavior on U+0130. -/
def clean_text_uni (s : String) : String :=
  if s = "" then "" else String.mk (cleanListU s.data)

/-- Conversion of a valid scalar value round-trips through Char.ofNat. -/
theorem char_toNat_ofNat {n : Nat} (h : n < 55296) : (Char.ofNat n).toNat = n := by
  have hv : n.isValidChar := Or.inl h
  simp [Char.ofNat, hv, Char.ofNatAux, Char.toNat, UInt32.toNat, BitVec.toNat_ofNatLt]

/-- Numeric characterization of Char.toLower. -/
theorem toNat_toLower (c : Char) :
    (Char.toLower c).toNat =
      if 65 ≤ c.toNat ∧ c.toNat ≤ 90 then c.toNat + 32 else c.toNat := by
  by_cases h : 65 ≤ c.toNat ∧ c.toNat ≤ 90
  · rw [if_pos h]
    show (if c.toNat ≥ 65 ∧ c.toNat ≤ 90 then Char.ofNat (c.toNat + 32) else c).toNat = _
    rw [if_pos h]
    exact char_toNat_ofNat (by omega)
  · rw [if_neg h]
    show (if c.toNat ≥ 65 ∧ c.toNat ≤ 90 then Char.ofNat (c.toNat + 32) else c).toNat = _
    rw [if_neg h]

/-- Lower-casing preserves whitespace-status. -/
theorem isSpaceChar_toLower (c : Char) : isSpaceChar (Char.toLower c) = isSpaceChar c := by
  by_cases h : 65 ≤ c.toNat ∧ c.toNat ≤ 90
  · simp only [isSpaceChar, toNat_toLower, if_pos h]
    rw [decide_eq_decide]
    omega
  · simp only [isSpaceChar, toNat_toLower, if_neg h]

/-- Lower-casing preserves word-character status. -/
theorem isWordChar_toLower (c : Char) : isWordChar (Char.toLower c) = isWordChar c := by
  by_cases h : 65 ≤ c.toNat ∧ c.toNat ≤ 90
  · simp only [isWordChar, toNat_toLower, if_pos h]
    rw [decide_eq_decide]
    omega
  · simp only [isWordChar, toNat_toLower, if_neg h]

/-- Lower-casing preserves the kept-character class of clean_text. -/
theorem keepChar_toLower (c : Char) : keepChar (Char.toLower c) = keepChar c := by
  simp [keepChar, isWordChar_toLower, isSpaceChar_toLower]

/-- Char.toLower fixes characters that are not upper-case ASCII letters. -/
theorem toLower_eq_self {d : Char} (h : ¬(65 ≤ d.toNat ∧ d.toNat ≤ 90)) :
    Char.toLower d = d := by
  show (if d.toNat ≥ 65 ∧ d.toNat ≤ 90 then Char.ofNat (d.toNat + 32) else d) = d
  rw [if_neg h]

/-- Char.toLower is idempotent. -/
theorem toLower_toLower (c : Char) : (Char.toLower c).toLower = Char.toLower c := by
  apply toLower_eq_self
  rw [toNat_toLower]
  by_cases h : 65 ≤ c.toNat ∧ c.toNat ≤ 90
  · rw [if_pos h]; omega
  · rw [if_neg h]; omega

/-- Every character of a word produced by wordsAux comes from the input or
the accumulator. -/
theorem wordsAux_mem (l : List Char) :
    ∀ cur w, w ∈ wordsAux cur l → ∀ c ∈ w, c ∈ l ∨ c ∈ cur := by
  induction l with
  | nil =>
    intro cur w hw c hc
    by_cases h : cur.isEmpty
    · simp [wordsAux, h] at hw
    · simp [wordsAux, h] at hw
      subst hw
      exact Or.inr (List.mem_reverse.mp hc)
  | cons a as ih =>
    intro cur w hw c hc
    by_cases hs : isSpaceChar a
    · by_cases h : cur.isEmpty
      · simp only [wordsAux, hs, if_true, h] at hw
        rcases ih [] w hw c hc with h' | h'
        · exact Or.inl (List.mem_cons_of_mem _ h')
        · cases h'
      · simp only [wordsAux, hs, if_true, h, if_false] at hw
        rcases List.mem_cons.mp hw with h' | h'
        · subst h'
          exact Or.inr (List.mem_reverse.mp hc)
        · rcases ih [] w h' c hc with h'' | h''
          · exact Or.inl (List.mem_cons_of_mem _ h'')
          · cases h''
    · simp only [wordsAux, hs, if_false] at hw
      rcases ih (a :: cur) w hw c hc with h' | h'
      · exact Or.inl (List.mem_cons_of_mem _ h')
      · rcases List.mem_cons.mp h' with h'' | h''
        · exact Or.inl (h'' ▸ List.mem_cons_self _ _)
        · exact Or.inr h''

/-- Every character of a joined word list is a space or comes from a word. -/
theorem joinWords_mem :
    ∀ W (c : Char), c ∈ joinWords W → c = ' ' ∨ ∃ w ∈ W, c ∈ w := by
  intro W
  induction W with
  | nil => intro c hc; cases hc
  | cons w t ih =>
    intro c hc
    cases t with
    | nil =>
      simp only [joinWords] at hc
      exact Or.inr ⟨w, List.mem_cons_self _ _, hc⟩
    | cons w' t' =>
      simp only [joinWords] at hc
      rcases List.mem_append.mp hc with h | h
      · exact Or.inr ⟨w, List.mem_cons_self _ _, h⟩
      · rcases List.mem_cons.mp h with h' | h'
        · exact Or.inl h'
        · rcases ih c h' with h'' | h''
          · exact Or.inl h''
          · rcases h'' with ⟨u, hu, hcu⟩
            exact Or.inr ⟨u, List.mem_cons_of_mem _ hu, hcu⟩

/-- wordsAux commutes with lower-casing of accumulator and input. -/
theorem wordsAux_map_toLower (l : List Char) :
    ∀ cur, wordsAux (cur.map Char.toLower) (l.map Char.toLower) =
      (wordsAux cur l).map (List.map Char.toLower) := by
  induction l with
  | nil =>
    intro cur
    by_cases h : cur.isEmpty
    · have : (cur.map Char.toLower).isEmpty = true := by
        cases cur with
        | nil => rfl
        | cons x xs => simp at h
      simp [wordsAux, h, this]
    · have : (cur.map Char.toLower).isEmpty = false := by
        cases cur with
        | nil => simp at h
        | cons x xs => rfl
      simp [wordsAux, h, this, List.map_reverse]
  | cons a as ih =>
    intro cur
    by_cases hs : isSpaceChar a
    · have hs' : isSpaceChar (Char.toLower a) = true := by rw [isSpaceChar_toLower]; exact hs
      by_cases h : cur.isEmpty
      · have h' : (cur.map Char.toLower).isEmpty = true := by
          cases cur with
          | nil => rfl
          | cons x xs => simp at h
        simp only [List.map_cons, wordsAux, hs, hs', if_true, h, h']
        exact ih []
      · have h' : (cur.map Char.toLower).isEmpty = false := by
          cases cur with
          | nil => simp at h
          | cons x xs => rfl
        simp only [List.map_cons, wordsAux, hs, hs', if_true, h, h', if_false,
          List.map_cons, List.map_reverse]
        rw [show ([] : List Char) = List.map Char.toLower [] from rfl, ih []]
        simp [List.map_reverse]
    · have hs' : isSpaceChar (Char.toLower a) = false := by rw [isSpaceChar_toLower]; simp [hs]
      simp only [List.map_cons, wordsAux, hs, hs', if_false]
      rw [show Char.toLower a :: cur.map Char.toLower = (a :: cur).map Char.toLower from rfl]
      exact ih (a :: cur)

/-- joinWords commutes with lower-casing (a space lower-cases to itself). -/
theorem joinWords_map_toLower :
    ∀ W, joinWords (W.map (List.map Char.toLower)) = (joinWords W).map Char.toLower := by
  intro W
  induction W with
  | nil => rfl
  | cons w t ih =>
    cases t with
    | nil => rfl
    | cons w' t' =>
      simp only [List.map_cons, joinWords] at ih ⊢
      rw [ih]
      simp only [List.map_append, List.map_cons]
      rfl

/-- Words produced by wordsAux are nonempty and whitespace-free when the
accumulator is whitespace-free. -/
theorem wordsAux_sound (l : List Char) :
    ∀ cur, (∀ c ∈ cur, isSpaceChar c = false) →
      ∀ w ∈ wordsAux cur l, w ≠ [] ∧ ∀ c ∈ w, isSpaceChar c = false := by
  induction l with
  | nil =>
    intro cur hcur w hw
    by_cases h : cur.isEmpty
    · simp [wordsAux, h] at hw
    · simp [wordsAux, h] at hw
      subst hw
      constructor
      · simp
        cases cur with
        | nil => simp at h
        | cons x xs => simp
      · intro c hc
        exact hcur c (List.mem_reverse.mp hc)
  | cons a as ih =>
    intro cur hcur w hw
    by_cases hs : isSpaceChar a
    · by_cases h : cur.isEmpty
      · simp only [wordsAux, hs, if_true, h] at hw
        exact ih [] (by intro c hc; cases hc) w hw
      · simp only [wordsAux, hs, if_true, h, if_false] at hw
        rcases List.mem_cons.mp hw with h' | h'
        · subst h'
          constructor
          · simp
            cases cur with
            | nil => simp at h
            | cons x xs => simp
          · intro c hc
            exact hcur c (List.mem_reverse.mp hc)
        · exact ih [] (by intro c hc; cases hc) w h'
    · simp only [wordsAux, hs, if_false] at hw
      refine ih (a :: cur) ?_ w hw
      intro c hc
      rcases List.mem_cons.mp hc with h' | h'
      · subst h'; simp [hs]
      · exact hcur c h'

/-- Unfolding equation: a non-space character extends the current word. -/
theorem wordsAux_cons_nonspace {a : Char} (cur cs : List Char)
    (h : isSpaceChar a = false) : wordsAux cur (a :: cs) = wordsAux (a :: cur) cs := by
  simp [wordsAux, h]

/-- Scanning a whitespace-free word extends the accumulator. -/
theorem wordsAux_append_nonspace :
    ∀ (w cur rest : List Char), (∀ c ∈ w, isSpaceChar c = false) →
      wordsAux cur (w ++ rest) = wordsAux (w.reverse ++ cur) rest := by
  intro w
  induction w with
  | nil => intro cur rest _; rfl
  | cons a as ih =>
    intro cur rest hw
    have ha : isSpaceChar a = false := hw a (List.mem_cons_self _ _)
    rw [List.cons_append, wordsAux_cons_nonspace cur _ ha,
      ih (a :: cur) rest (fun c hc => hw c (List.mem_cons_of_mem _ hc))]
    simp

/-- words is a left inverse of joinWords on lists of nonempty
whitespace-free words. -/
theorem words_joinWords :
    ∀ W, (∀ w ∈ W, w ≠ [] ∧ ∀ c ∈ w, isSpaceChar c = false) →
      words (joinWords W) = W := by
  intro W
  induction W with
  | nil => intro _; rfl
  | cons w t ih =>
    intro hW
    obtain ⟨hw_ne, hw_nospace⟩ := hW w (List.mem_cons_self _ _)
    cases t with
    | nil =>
      show words (joinWords [w]) = [w]
      have hstep := wordsAux_append_nonspace w [] [] hw_nospace
      rw [List.append_nil] at hstep
      unfold joinWords words
      rw [hstep]
      simp [wordsAux]
      cases w with
      | nil => exact absurd rfl hw_ne
      | cons x xs => simp
    | cons w' t' =>
      show words (w ++ ' ' :: joinWords (w' :: t')) = w :: w' :: t'
      unfold words
      rw [wordsAux_append_nonspace w [] _ hw_nospace]
      have hsp : isSpaceChar ' ' = true := by decide
      simp only [List.append_nil, wordsAux, hsp, if_true]
      have hne : (w.reverse).isEmpty = false := by
        cases w with
        | nil => exact absurd rfl hw_ne
        | cons x xs => simp
      rw [if_neg (by simp_all)]
      rw [List.reverse_reverse]
      have := ih (fun u hu => hW u (List.mem_cons_of_mem _ hu))
      unfold words at this
      rw [this]

/-- splitWS never returns the empty list of chunks. -/
theorem splitWS_ne_nil (l : List Char) : splitWS l ≠ [] := by
  induction l with
  | nil => simp [splitWS]
  | cons a as ih =>
    by_cases h : isSpaceChar a
    · simp [splitWS, h]
    · simp only [splitWS, h, if_false, Bool.false_eq_true]
      cases hs : splitWS as with
      | nil => exact absurd hs ih
      | cons x xs => simp [List.modifyHead]

/-- Dropping the empty chunks of splitWS, with the first chunk extended by
the pending accumulator, is exactly wordsAux. -/
theorem wordsAux_eq_splitWS_filter (l : List Char) :
    ∀ cur h t, splitWS l = h :: t →
      wordsAux cur l = ((cur.reverse ++ h) :: t).filter (fun w => !w.isEmpty) := by
  induction l with
  | nil =>
    intro cur h t hsplit
    simp only [splitWS, List.cons_eq_cons] at hsplit
    obtain ⟨hh, ht⟩ := hsplit
    subst hh
    rw [← ht]
    by_cases hc : cur.isEmpty
    · have : cur = [] := by cases cur with | nil => rfl | cons x xs => simp at hc
      subst this
      rfl
    · have hr : cur.reverse.isEmpty = false := by
        cases cur with | nil => simp at hc | cons x xs => simp
      simp [wordsAux, hc, List.filter, hr]
  | cons a as ih =>
    intro cur h t hsplit
    obtain ⟨h', t', hsplit'⟩ : ∃ h' t', splitWS as = h' :: t' := by
      cases hs' : splitWS as with
      | nil => exact absurd hs' (splitWS_ne_nil as)
      | cons x xs => exact ⟨x, xs, rfl⟩
    cases hs : isSpaceChar a with
    | true =>
      rw [splitWS, if_pos hs] at hsplit
      obtain ⟨hh, ht⟩ := List.cons_eq_cons.mp hsplit
      subst hh
      rw [← ht]
      by_cases hc : cur.isEmpty
      · have hcnil : cur = [] := by cases cur with | nil => rfl | cons x xs => simp at hc
        subst hcnil
        simp only [wordsAux, hs, if_true, List.isEmpty_nil]
        rw [ih [] h' t' hsplit']
        simp only [List.reverse_nil, List.nil_append, List.append_nil, hsplit']
        rfl
      · have hr : cur.reverse.isEmpty = false := by
          cases cur with | nil => simp at hc | cons x xs => simp
        simp only [wordsAux, hs, if_true, hc, if_false, Bool.false_eq_true]
        rw [ih [] h' t' hsplit']
        simp only [List.reverse_nil, List.nil_append, List.append_nil, hsplit']
        simp [List.filter, hr]
    | false =>
      rw [splitWS, if_neg (by simp [hs]), hsplit', List.modifyHead] at hsplit
      obtain ⟨hh, ht⟩ := List.cons_eq_cons.mp hsplit
      rw [← hh, ← ht]
      rw [wordsAux_cons_nonspace cur as hs, ih (a :: cur) h' t' hsplit']
      simp

/-- words as the nonempty chunks of splitWS. -/
theorem words_eq_splitWS (l : List Char) :
    words l = (splitWS l).filter (fun w => !w.isEmpty) := by
  obtain ⟨h, t, hsplit⟩ : ∃ h t, splitWS l = h :: t := by
    cases hs : splitWS l with
    | nil => exact absurd hs (splitWS_ne_nil l)
    | cons x xs => exact ⟨x, xs, rfl⟩
  rw [words, wordsAux_eq_splitWS_filter l [] h t hsplit, hsplit]
  rfl

/-- joinWords agrees with library intercalate on a single-space separator. -/
theorem joinWords_eq_intercalate :
    ∀ W, List.intercalate [' '] W = joinWords W := by
  intro W
  induction W with
  | nil => rfl
  | cons w t ih =>
    cases t with
    | nil => simp [List.intercalate, List.intersperse, joinWords]
    | cons w' t' =>
      rw [show joinWords (w :: w' :: t') = w ++ ' ' :: joinWords (w' :: t') from rfl, ← ih]
      simp [List.intercalate, List.intersperse]

/-- Every character of cleanList output is a kept character. -/
theorem keepChar_mem_cleanList (l : List Char) : ∀ c ∈ cleanList l, keepChar c = true := by
  intro c hc
  rw [cleanList] at hc
  obtain ⟨d, hd, rfl⟩ := List.mem_map.mp hc
  rw [keepChar_toLower]
  rcases joinWords_mem _ d hd with h | ⟨w, hw, hdw⟩
  · subst h; decide
  · rcases wordsAux_mem _ [] w hw d hdw with h' | h'
    · exact List.of_mem_filter h'
    · cases h'

/-- cleanList is idempotent. -/
theorem cleanList_idem (l : List Char) : cleanList (cleanList l) = cleanList l := by
  have hW : ∀ w ∈ words (l.filter keepChar), w ≠ [] ∧ ∀ c ∈ w, isSpaceChar c = false :=
    wordsAux_sound _ [] (by intro c hc; cases hc)
  have h1 : (cleanList l).filter keepChar = cleanList l :=
    List.filter_eq_self.mpr (keepChar_mem_cleanList l)
  have h2 : words (cleanList l) = (words (l.filter keepChar)).map (List.map Char.toLower) := by
    rw [cleanList, words]
    have hmap := wordsAux_map_toLower (joinWords (words (l.filter keepChar))) []
    simp only [List.map_nil] at hmap
    rw [hmap]
    rw [show wordsAux [] (joinWords (words (l.filter keepChar)))
        = words (joinWords (words (l.filter keepChar))) from rfl,
      words_joinWords _ hW]
  conv_lhs => rw [cleanList]
  rw [h1, h2, joinWords_map_toLower, List.map_map]
  rw [cleanList]
  exact List.map_congr_left (fun c _ => toLower_toLower c)

/-- Filtering kept characters commutes with lower-casing. -/
theorem filter_keep_map_toLower (l : List Char) :
    (l.map Char.toLower).filter keepChar = (l.filter keepChar).map Char.toLower := by
  induction l with
  | nil => rfl
  | cons a as ih =>
    cases h : keepChar a with
    | true =>
      have h' : keepChar (Char.toLower a) = true := by rw [keepChar_toLower]; exact h
      simp [List.filter_cons, h, h', ih]
    | false =>
      have h' : keepChar (Char.toLower a) = false := by rw [keepChar_toLower]; exact h
      simp [List.filter_cons, h, h', ih]

/-- words commutes with lower-casing. -/
theorem words_map_toLower (l : List Char) :
    words (l.map Char.toLower) = (words l).map (List.map Char.toLower) := by
  rw [words, words]
  have := wordsAux_map_toLower l []
  simpa using this

/-- Generic foldl invariant preservation. -/
theorem foldl_invariant {α β : Type} (P : β → Prop) (f : β → α → β) :
    ∀ (l : List α) (init : β), P init → (∀ acc x, x ∈ l → P acc → P (f acc x)) →
      P (l.foldl f init) := by
  intro l
  induction l with
  | nil => intro init h _; exact h
  | cons x xs ih =>
    intro init h hstep
    exact ih (f init x) (hstep init x (List.mem_cons_self _ _) h)
      (fun acc y hy hacc => hstep acc y (List.mem_cons_of_mem _ hy) hacc)

/-- A matching run is no longer than either list. -/
theorem runLen_le (a : List Char) : ∀ b, runLen a b ≤ min a.length b.length := by
  induction a with
  | nil => intro b; cases b <;> simp [runLen]
  | cons x xs ih =>
    intro b
    cases b with
    | nil => simp [runLen]
    | cons y ys =>
      by_cases h : x = y
      · subst h
        have := ih ys
        simp only [runLen, if_true, List.length_cons]
        omega
      · simp [runLen, h]

/-- A nonzero best match of findBest lies within both lists. -/
theorem findBest_bounds (a b : List Char) :
    (findBest a b).2.2 ≠ 0 →
      (findBest a b).1 + (findBest a b).2.2 ≤ a.length ∧
      (findBest a b).2.1 + (findBest a b).2.2 ≤ b.length := by
  rw [findBest]
  refine foldl_invariant
    (fun best : Nat × Nat × Nat => best.2.2 ≠ 0 →
      best.1 + best.2.2 ≤ a.length ∧ best.2.1 + best.2.2 ≤ b.length)
    _ _ _ (fun h => absurd rfl h) ?_
  intro acc i hi hacc
  refine foldl_invariant
    (fun best : Nat × Nat × Nat => best.2.2 ≠ 0 →
      best.1 + best.2.2 ≤ a.length ∧ best.2.1 + best.2.2 ≤ b.length)
    _ _ _ hacc ?_
  intro acc' j hj hacc'
  by_cases hlt : acc'.2.2 < runLen (a.drop i) (b.drop j)
  · rw [if_pos hlt]
    intro _
    have hrun := runLen_le (a.drop i) (b.drop j)
    simp only [List.length_drop] at hrun
    have hi' : i < a.length := List.mem_range.mp hi
    have hj' : j < b.length := List.mem_range.mp hj
    refine ⟨?_, ?_⟩ <;> (simp only []; omega)
  · rw [if_neg hlt]
    exact hacc'

/-- The total matched character count is bounded by both lengths. -/
theorem matchTotalF_le (fuel : Nat) :
    ∀ a b : List Char, matchTotalF fuel a b ≤ min a.length b.length := by
  induction fuel with
  | zero => intro a b; simp [matchTotalF]
  | succ n ih =>
    intro a b
    simp only [matchTotalF]
    by_cases h : (findBest a b).2.2 = 0
    · simp [h]
    · rw [if_neg h]
      obtain ⟨h1, h2⟩ := findBest_bounds a b h
      have hl := ih (a.take (findBest a b).1) (b.take (findBest a b).2.1)
      have hr := ih (a.drop ((findBest a b).1 + (findBest a b).2.2))
                    (b.drop ((findBest a b).2.1 + (findBest a b).2.2))
      simp only [List.length_take, List.length_drop] at hl hr
      omega

/-- The similarity ratio is nonnegative. -/
theorem ratioQ_nonneg (a b : List Char) : 0 ≤ ratioQ a b := by
  rw [ratioQ]
  by_cases h : a.length + b.length = 0
  · simp [h]
  · rw [if_neg h, Rat.mkRat_eq_div]
    apply div_nonneg
    · positivity
    · positivity

/-- The similarity ratio is at most one. -/
theorem ratioQ_le_one (a b : List Char) : ratioQ a b ≤ 1 := by
  rw [ratioQ]
  by_cases h : a.length + b.length = 0
  · simp [h]
  · rw [if_neg h, Rat.mkRat_eq_div, div_le_one]
    · have hb := matchTotalF_le (a.length + 1) a b
      rw [show matchTotalF (a.length + 1) a b = matchTotal a b from rfl] at hb
      have hM : 2 * matchTotal a b ≤ a.length + b.length := by omega
      push_cast
      exact_mod_cast hM
    · have : 0 < a.length + b.length := Nat.pos_of_ne_zero h
      exact_mod_cast this

/-- The ASCII-fragment normalizer is idempotent (helper for the amended
claim C9: on ASCII input the program is idempotent). -/
theorem clean_text_idem (s : String) :
    clean_text (clean_text s) = clean_text s := by
  by_cases hs : s = ""
  · subst hs; rfl
  · rw [show clean_text s = String.mk (cleanList s.data) from by rw [clean_text, if_neg hs]]
    by_cases h2 : String.mk (cleanList s.data) = ""
    · rw [h2]
      rfl
    · rw [clean_text, if_neg h2]
      rw [show (String.mk (cleanList s.data)).data = cleanList s.data from rfl, cleanList_idem]

/-- Claim C8 counterexample: clean_text keeps the underscore (regex class \w),
so stripping "every character that is not alphanumeric or whitespace" as the
claim words it disagrees with the code on the input "a_b". -/
theorem C8_counterexample :
    clean_text "a_b" = "a_b" ∧ normalize_claimed "a_b" = "ab" ∧
      clean_text "a_b" ≠ normalize_claimed "a_b" := by
  refine ⟨by decide, by decide, by decide⟩

/-- Claim C8 (amended): for every input string, clean_text strips every
character that is not alphanumeric, underscore or whitespace, collapses
internal whitespace runs to single spaces and lower-cases the result; empty
input yields the empty string. -/
theorem C8_clean_text_spec (s : String) :
    clean_text s = normalize_spec s ∧ clean_text "" = "" := by
  refine ⟨?_, rfl⟩
  by_cases hs : s = ""
  · subst hs; rfl
  · rw [clean_text, if_neg hs, normalize_spec]
    have hmk : ∀ x y : List Char, x = y → String.mk x = String.mk y := fun x y h => by rw [h]
    apply hmk
    rw [joinWords_eq_intercalate, ← words_eq_splitWS]
    rw [show (fun c => isWordChar c || isSpaceChar c) = keepChar from rfl]
    rw [filter_keep_map_toLower, words_map_toLower, joinWords_map_toLower, cleanList]

/-- Claim C10: two non-empty inputs that clean to the empty string (for
instance punctuation-only strings) bypass the raw-empty guard, the ratio of
two empty cleaned strings is 1, and is_similar accepts them at every
threshold at most 1. -/
theorem C10_punctuation_only (a b : String) (t : ℚ) (ha : a ≠ "") (hb : b ≠ "")
    (hca : clean_text a = "") (hcb : clean_text b = "") (ht : t ≤ 1) :
    is_similar a b t = true ∧ is_similar "!!!" "???" 1 = true := by
  constructor
  · rw [is_similar, if_neg (by simp [ha, hb]), hca, hcb]
    rw [show ratioQ ("" : String).data ("" : String).data = 1 from rfl]
    exact decide_eq_true ht
  · decide

/-- Witness for C10 at punctuation-only inputs and threshold 9/10. -/
theorem C10_witness :
    ("!!!" : String) ≠ "" ∧ ("???" : String) ≠ "" ∧ clean_text "!!!" = "" ∧
      clean_text "???" = "" ∧ (mkRat 9 10 : ℚ) ≤ 1 ∧
      is_similar "!!!" "???" (mkRat 9 10) = true := by
  refine ⟨by decide, by decide, by decide, by decide, by decide, ?_⟩
  exact (C10_punctuation_only "!!!" "???" (mkRat 9 10) (by decide) (by decide)
    (by decide) (by decide) (by decide)).1

set_option maxRecDepth 40000 in
/-- Claim C7: is_similar is false when either raw input is empty, regardless
of threshold; for non-empty inputs it normalizes both via clean_text and is
true iff the sequence-similarity ratio (a value in [0,1]) is at least the
threshold; the example pair is accepted at threshold 0.8. -/
theorem C7_is_similar_spec (a b : String) (t : ℚ) :
    ((a = "" ∨ b = "") → is_similar a b t = false) ∧
    (a ≠ "" → b ≠ "" →
      (is_similar a b t = true ↔
        t ≤ ratioQ (clean_text a).data (clean_text b).data)) ∧
    0 ≤ ratioQ (clean_text a).data (clean_text b).data ∧
    ratioQ (clean_text a).data (clean_text b).data ≤ 1 ∧
    is_similar "Test Album" "test   album!!" (0.8 : ℚ) = true := by
  refine ⟨?_, ?_, ratioQ_nonneg _ _, ratioQ_le_one _ _, ?_⟩
  · intro h
    rw [is_similar, if_pos]
    rcases h with h | h <;> simp [h]
  · intro ha hb
    rw [is_similar, if_neg (by simp [ha, hb])]
    simp
  · rw [show (0.8 : ℚ) = mkRat 4 5 from by norm_num [Rat.mkRat_eq_divInt]]
    decide

/-- Witness for C7: the empty-input guard and the ratio characterization at
concrete inputs. -/
theorem C7_witness :
    is_similar "" "anything" (mkRat 4 5) = false ∧
      (is_similar "ab" "ab" 1 = true ↔
        (1 : ℚ) ≤ ratioQ (clean_text "ab").data (clean_text "ab").data) := by
  exact ⟨(C7_is_similar_spec "" "anything" (mkRat 4 5)).1 (Or.inl rfl),
    (C7_is_similar_spec "ab" "ab" 1).2.1 (by decide) (by decide)⟩

/-- One depth step stays nonnegative. -/
theorem dstep_nonneg {d : Int} (c : Char) (h : 0 ≤ d) : 0 ≤ dstep d c := by
  unfold dstep
  split
  · omega
  · split
    · exact le_max_right _ _
    · exact h

/-- The clamped depth is never negative. -/
theorem depthClamped_nonneg (l : List Char) : 0 ≤ depthClamped l := by
  rw [depthClamped]
  exact foldl_invariant (fun d => 0 ≤ d) dstep l 0 le_rfl (fun d c _ hd => dstep_nonneg c hd)

/-- Depth of a one-character extension. -/
theorem depthClamped_snoc (u : List Char) (c : Char) :
    depthClamped (u ++ [c]) = dstep (depthClamped u) c := by
  simp [depthClamped, List.foldl_append]

/-- Characters that are not parentheses do not change the depth scan. -/
theorem foldl_dstep_no_paren :
    ∀ (p : List Char) (d : Int), (∀ c ∈ p, c ≠ '(' ∧ c ≠ ')') → p.foldl dstep d = d := by
  intro p
  induction p with
  | nil => intro d _; rfl
  | cons a as ih =>
    intro d h
    obtain ⟨h1, h2⟩ := h a (List.mem_cons_self _ _)
    rw [List.foldl_cons, show dstep d a = d from by rw [dstep, if_neg h1, if_neg h2]]
    exact ih d (fun c hc => h c (List.mem_cons_of_mem _ hc))

/-- Whitespace characters are not parentheses. -/
theorem space_not_paren (c : Char) (h : isSpaceChar c = true) : c ≠ '(' ∧ c ≠ ')' := by
  constructor
  · intro hc; subst hc; exact absurd h (by decide)
  · intro hc; subst hc; exact absurd h (by decide)

/-- A whitespace prefix does not change the depth of any continuation. -/
theorem depthClamped_space_append (p u : List Char)
    (hp : ∀ c ∈ p, isSpaceChar c = true) : depthClamped (p ++ u) = depthClamped u := by
  rw [depthClamped, depthClamped, List.foldl_append,
    foldl_dstep_no_paren p 0 (fun c hc => space_not_paren c (hp c hc))]

/-- str.strip() splits the input into a whitespace prefix, the stripped core
and a whitespace suffix. -/
theorem strip_decomp (l : List Char) :
    ∃ p q, l = p ++ strip l ++ q ∧ (∀ c ∈ p, isSpaceChar c = true) := by
  refine ⟨l.takeWhile isSpaceChar,
    ((l.dropWhile isSpaceChar).reverse.takeWhile isSpaceChar).reverse, ?_, ?_⟩
  · rw [strip]
    conv_lhs => rw [← List.takeWhile_append_dropWhile isSpaceChar l]
    rw [List.append_assoc]
    congr 1
    conv_lhs => rw [← List.reverse_reverse (List.dropWhile isSpaceChar l),
      ← List.takeWhile_append_dropWhile isSpaceChar (List.dropWhile isSpaceChar l).reverse]
    rw [List.reverse_append]
  · intro c hc
    exact List.mem_takeWhile_imp hc

/-- Decomposing a one-character extension around a comma occurrence. -/
theorem snoc_eq_append_comma :
    ∀ (u s v : List Char) (c : Char), s ++ [c] = u ++ ',' :: v →
      (u = s ∧ c = ',' ∧ v = []) ∨ ∃ v', v = v' ++ [c] ∧ s = u ++ ',' :: v' := by
  intro u
  induction u with
  | nil =>
    intro s v c h
    simp only [List.nil_append] at h
    cases s with
    | nil =>
      simp only [List.nil_append] at h
      obtain ⟨hc, hv⟩ := List.cons_eq_cons.mp h
      exact Or.inl ⟨rfl, hc, hv.symm⟩
    | cons x xs =>
      obtain ⟨hx, hv⟩ := List.cons_eq_cons.mp h
      exact Or.inr ⟨xs, hv.symm, by rw [hx]; rfl⟩
  | cons y ys ih =>
    intro s v c h
    cases s with
    | nil =>
      simp only [List.nil_append] at h
      obtain ⟨_, hv⟩ := List.cons_eq_cons.mp h
      exact absurd hv.symm (by simp)
    | cons x xs =>
      obtain ⟨hx, hrest⟩ := List.cons_eq_cons.mp h
      rcases ih xs v c hrest with ⟨h1, h2, h3⟩ | ⟨v', hv, hs⟩
      · exact Or.inl ⟨by rw [hx, h1], h2, h3⟩
      · exact Or.inr ⟨v', hv, by rw [hx, hs]; rfl⟩

/-- The empty segment has no top-level comma. -/
theorem NoTopComma_nil : NoTopComma [] := by
  intro u v h
  cases u <;> simp at h

/-- Appending a non-comma character preserves the property. -/
theorem NoTopComma_snoc {s : List Char} {c : Char} (hc : c ≠ ',')
    (hs : NoTopComma s) : NoTopComma (s ++ [c]) := by
  intro u v h
  rcases snoc_eq_append_comma u s v c h with ⟨_, h2, _⟩ | ⟨v', _, h3⟩
  · exact absurd h2 hc
  · exact hs u v' h3

/-- Appending a comma at positive depth preserves the property. -/
theorem NoTopComma_snoc_comma {s : List Char} (hd : 0 < depthClamped s)
    (hs : NoTopComma s) : NoTopComma (s ++ [',']) := by
  intro u v h
  rcases snoc_eq_append_comma u s v ',' h with ⟨h1, _, _⟩ | ⟨v', _, h3⟩
  · rw [h1]; exact hd
  · exact hs u v' h3

/-- Stripping whitespace preserves the property. -/
theorem NoTopComma_strip {s : List Char} (hs : NoTopComma s) : NoTopComma (strip s) := by
  intro u v h
  obtain ⟨p, q, hdec, hp⟩ := strip_decomp s
  have hsplit : s = (p ++ u) ++ ',' :: (v ++ q) := by
    rw [hdec, h]; simp
  have hd := hs (p ++ u) (v ++ q) hsplit
  rwa [depthClamped_space_append p u hp] at hd

/-- Invariant of the top-level comma pass: every emitted segment has no
top-level comma, provided the running buffer has none and the tracked depth
is the clamped depth of the buffer. -/
theorem splitTopAux_no_top_comma :
    ∀ (cs buf : List Char) (depth : Int),
      depth = depthClamped buf → NoTopComma buf →
      ∀ s ∈ splitTopAux cs buf depth, NoTopComma s := by
  intro cs
  induction cs with
  | nil =>
    intro buf depth _ hb s hs
    rw [splitTopAux] at hs
    by_cases he : (strip buf).isEmpty
    · rw [if_pos he] at hs; cases hs
    · rw [if_neg he] at hs
      rcases List.mem_singleton.mp hs with rfl
      exact NoTopComma_strip hb
  | cons c cs' ih =>
    intro buf depth hd hb s hs
    rw [splitTopAux] at hs
    by_cases h1 : c = '('
    · rw [if_pos h1] at hs
      refine ih (buf ++ [c]) (depth + 1) ?_ ?_ s hs
      · rw [depthClamped_snoc, hd, h1, dstep, if_pos rfl]
      · exact NoTopComma_snoc (by rw [h1]; decide) hb
    · rw [if_neg h1] at hs
      by_cases h2 : c = ')'
      · rw [if_pos h2] at hs
        refine ih (buf ++ [c]) (max (depth - 1) 0) ?_ ?_ s hs
        · rw [depthClamped_snoc, hd, h2, dstep, if_neg (by decide), if_pos rfl]
        · exact NoTopComma_snoc (by rw [h2]; decide) hb
      · rw [if_neg h2] at hs
        by_cases h3 : c = ',' ∧ depth = 0
        · rw [if_pos h3] at hs
          rcases List.mem_cons.mp hs with rfl | hs'
          · exact NoTopComma_strip hb
          · exact ih [] 0 rfl NoTopComma_nil s hs'
        · rw [if_neg h3] at hs
          refine ih (buf ++ [c]) depth ?_ ?_ s hs
          · rw [depthClamped_snoc, hd, dstep, if_neg h1, if_neg h2]
          · by_cases hc : c = ','
            · have hdne : depth ≠ 0 := fun h0 => h3 ⟨hc, h0⟩
              have hpos : 0 < depthClamped buf := by
                have := depthClamped_nonneg buf
                rw [← hd] at *
                omega
              rw [hc]
              exact NoTopComma_snoc_comma (hd ▸ hpos) hb
            · exact NoTopComma_snoc hc hb

set_option maxRecDepth 40000 in
/-- Claim C5: split_artists splits on commas only at parenthesis nesting depth
zero: for every balanced raw credit string, no segment produced by the
top-level comma pass contains an un-split top-level comma; and the example
credit splits into exactly the three expected segments. -/
theorem C5_split_top_level (raw : String) (_hbal : balancedB raw.data = true) :
    (∀ s ∈ splitTopAux raw.data [] 0, NoTopComma s) ∧
    split_artists "Yasunori Mitsuda, ACE (TOMOri Kudo, CHiCO), Kenji Hiramatsu" =
      ["Yasunori Mitsuda", "ACE (TOMOri Kudo, CHiCO)", "Kenji Hiramatsu"] := by
  refine ⟨fun s hs => splitTopAux_no_top_comma raw.data [] 0 rfl NoTopComma_nil s hs, ?_⟩
  decide

set_option maxRecDepth 40000 in
/-- Witness for C5: a concrete balanced input, a concrete segment of its
top-level split, and a concrete comma decomposition of that segment. -/
theorem C5_witness :
    balancedB "f(a, b), c".data = true ∧
      "f(a, b)".data ∈ splitTopAux "f(a, b), c".data [] 0 ∧
      "f(a, b)".data = "f(a".data ++ ',' :: " b)".data ∧
      0 < depthClamped "f(a".data := by
  refine ⟨by decide, by decide, by decide, ?_⟩
  exact (C5_split_top_level "f(a, b), c" (by decide)).1 "f(a, b)".data (by decide)
    "f(a".data " b)".data (by decide)

set_option maxRecDepth 40000 in
/-- Claim C6 counterexample: split_artists does not deduplicate: the input
"a, a" yields the duplicated output ["a", "a"]. -/
theorem C6_counterexample :
    split_artists "a, a" = ["a", "a"] ∧ ¬ (split_artists "a, a").Nodup := by
  exact ⟨by decide, by decide⟩

set_option maxRecDepth 40000 in
/-- Claim C6 (amended): split_artists never returns an empty string, an
unmatched ')' clamps the tracked depth at zero (never negative) so later
top-level commas still split, and empty input yields the empty sequence;
no deduplication is performed. -/
theorem C6_split_artists_invariants (raw : String) :
    (∀ s ∈ split_artists raw, s ≠ "") ∧
      split_artists "a), b" = ["a)", "b"] ∧
      split_artists "" = [] ∧
      0 ≤ depthClamped raw.data := by
  refine ⟨?_, by decide, by decide, depthClamped_nonneg _⟩
  intro s hs
  rw [split_artists] at hs
  by_cases h : raw = ""
  · rw [if_pos h] at hs; cases hs
  · rw [if_neg h] at hs
    obtain ⟨w, hw, rfl⟩ := List.mem_map.mp hs
    obtain ⟨l, hl, hwl⟩ := List.mem_flatten.mp hw
    obtain ⟨p, hp, rfl⟩ := List.mem_map.mp hl
    rw [splitSeps] at hwl
    have hb := List.of_mem_filter hwl
    have hne : w ≠ [] := by
      cases w with
      | nil => simp at hb
      | cons x xs => simp
    intro hmk
    apply hne
    have := congrArg String.data hmk
    simpa using this

set_option maxRecDepth 40000 in
/-- Witness for C6 at a concrete split. -/
theorem C6_witness :
    ("x" : String) ∈ split_artists "x, y" ∧ ("x" : String) ≠ "" := by
  refine ⟨by decide, ?_⟩
  exact (C6_split_artists_invariants "x, y").1 "x" (by decide)

/-- An always-retryably-failing operation is invoked once per unit of budget
plus once, and the last error is re-raised. -/
theorem retryGo_all_fail {α ε : Type} (op : Nat → Except ε α) (retryable : ε → Bool)
    (e : Nat → ε) (hop : ∀ n, op n = .error (e n)) (hr : ∀ n, retryable (e n) = true) :
    ∀ remaining attempt, retryGo op retryable attempt remaining
      = (attempt + remaining + 1, .error (e (attempt + remaining))) := by
  intro remaining
  induction remaining with
  | zero =>
    intro attempt
    rw [retryGo, hop attempt]
    simp only [hr attempt, if_true]
    rfl
  | succ r ihr =>
    intro attempt
    rw [retryGo, hop attempt]
    simp only [hr attempt, if_true]
    rw [ihr (attempt + 1)]
    have h1 : attempt + 1 + r = attempt + (r + 1) := by omega
    rw [h1]

/-- If the first k attempts fail retryably and attempt k succeeds within the
budget, the successful result is returned after exactly k + 1 invocations. -/
theorem retryGo_ok {α ε : Type} (op : Nat → Except ε α) (retryable : ε → Bool) :
    ∀ (k remaining attempt : Nat) (a : α), k ≤ remaining →
      (∀ i, i < k → ∃ er, op (attempt + i) = .error er ∧ retryable er = true) →
      op (attempt + k) = .ok a →
      retryGo op retryable attempt remaining = (attempt + k + 1, .ok a) := by
  intro k
  induction k with
  | zero =>
    intro remaining attempt a _ _ hok
    rw [Nat.add_zero] at hok
    rw [retryGo, hok]
  | succ k ihk =>
    intro remaining attempt a hle hfail hok
    obtain ⟨er, her, hrer⟩ := hfail 0 (Nat.succ_pos k)
    rw [Nat.add_zero] at her
    cases remaining with
    | zero => omega
    | succ r =>
      rw [retryGo, her]
      simp only [hrer, if_true]
      rw [ihk r (attempt + 1) a (by omega)
        (fun i hi => by
          obtain ⟨er', her', hrer'⟩ := hfail (i + 1) (by omega)
          exact ⟨er', by rw [show attempt + 1 + i = attempt + (i + 1) from by omega]; exact her',
            hrer'⟩)
        (by rw [show attempt + 1 + k = attempt + (k + 1) from by omega]; exact hok)]
      have h1 : attempt + 1 + k = attempt + (k + 1) := by omega
      rw [h1]

/-- If the first k attempts fail retryably and attempt k raises a
non-retryable error within the budget, that error propagates immediately. -/
theorem retryGo_nonretryable {α ε : Type} (op : Nat → Except ε α) (retryable : ε → Bool) :
    ∀ (k remaining attempt : Nat) (e : ε), k ≤ remaining →
      (∀ i, i < k → ∃ er, op (attempt + i) = .error er ∧ retryable er = true) →
      op (attempt + k) = .error e → retryable e = false →
      retryGo op retryable attempt remaining = (attempt + k + 1, .error e) := by
  intro k
  induction k with
  | zero =>
    intro remaining attempt e _ _ herr hnr
    rw [Nat.add_zero] at herr
    rw [retryGo, herr]
    simp only [hnr, Bool.false_eq_true, if_false]
  | succ k ihk =>
    intro remaining attempt e hle hfail herr hnr
    obtain ⟨er, her, hrer⟩ := hfail 0 (Nat.succ_pos k)
    rw [Nat.add_zero] at her
    cases remaining with
    | zero => omega
    | succ r =>
      rw [retryGo, her]
      simp only [hrer, if_true]
      rw [ihk r (attempt + 1) e (by omega)
        (fun i hi => by
          obtain ⟨er', her', hrer'⟩ := hfail (i + 1) (by omega)
          exact ⟨er', by rw [show attempt + 1 + i = attempt + (i + 1) from by omega]; exact her',
            hrer'⟩)
        (by rw [show attempt + 1 + k = attempt + (k + 1) from by omega]; exact herr) hnr]
      have h1 : attempt + 1 + k = attempt + (k + 1) := by omega
      rw [h1]

/-- The loop never makes more invocations than its budget plus one. -/
theorem retryGo_count_le {α ε : Type} (op : Nat → Except ε α) (retryable : ε → Bool) :
    ∀ remaining attempt,
      (retryGo op retryable attempt remaining).1 ≤ attempt + remaining + 1 := by
  intro remaining
  induction remaining with
  | zero =>
    intro attempt
    rw [retryGo]
    cases hop : op attempt with
    | ok a => change attempt + 1 ≤ attempt + 0 + 1; omega
    | error e =>
      change (if retryable e = true then (attempt + 1, Except.error e)
        else (attempt + 1, Except.error e)).1 ≤ attempt + 0 + 1
      rw [ite_self]
  | succ r ihr =>
    intro attempt
    rw [retryGo]
    cases hop : op attempt with
    | ok a => change attempt + 1 ≤ attempt + (r + 1) + 1; omega
    | error e =>
      change (if retryable e = true then retryGo op retryable (attempt + 1) r
        else (attempt + 1, Except.error e)).1 ≤ attempt + (r + 1) + 1
      by_cases hr : retryable e
      · rw [if_pos hr]
        have := ihr (attempt + 1)
        omega
      · rw [if_neg hr]
        change attempt + 1 ≤ attempt + (r + 1) + 1
        omega

/-- Claim C2: with retry budget n, the wrapper makes at most n+1 invocations;
an always-retryably-failing operation is invoked exactly n+1 times and its
last error propagates unchanged; a success within the budget is returned
unchanged; a non-retryable error propagates immediately on first occurrence
without any retry. -/
theorem C2_retry_with_backoff (α ε : Type) (op : Nat → Except ε α) (retryable : ε → Bool)
    (retries : Nat) :
    (retry_with_backoff op retryable retries).1 ≤ retries + 1 ∧
    (∀ e : Nat → ε, (∀ n, op n = .error (e n)) → (∀ n, retryable (e n) = true) →
      retry_with_backoff op retryable retries = (retries + 1, .error (e retries))) ∧
    (∀ (k : Nat) (a : α), k ≤ retries →
      (∀ i, i < k → ∃ er, op i = .error er ∧ retryable er = true) →
      op k = .ok a →
      retry_with_backoff op retryable retries = (k + 1, .ok a)) ∧
    (∀ (k : Nat) (e : ε), k ≤ retries →
      (∀ i, i < k → ∃ er, op i = .error er ∧ retryable er = true) →
      op k = .error e → retryable e = false →
      retry_with_backoff op retryable retries = (k + 1, .error e)) := by
  refine ⟨?_, ?_, ?_, ?_⟩
  · have := retryGo_count_le op retryable retries 0
    rw [retry_with_backoff]
    omega
  · intro e hop hr
    rw [retry_with_backoff, retryGo_all_fail op retryable e hop hr retries 0]
    simp
  · intro k a hk hfail hok
    rw [retry_with_backoff, retryGo_ok op retryable k retries 0 a hk
      (fun i hi => by rw [Nat.zero_add]; exact hfail i hi)
      (by rw [Nat.zero_add]; exact hok)]
    simp
  · intro k e hk hfail herr hnr
    rw [retry_with_backoff, retryGo_nonretryable op retryable k retries 0 e hk
      (fun i hi => by rw [Nat.zero_add]; exact hfail i hi)
      (by rw [Nat.zero_add]; exact herr) hnr]
    simp

/-- Witness for C2: exhaustion after exactly three invocations with budget 2,
success on the third attempt, and immediate propagation of a non-retryable
error. -/
theorem C2_witness :
    retry_with_backoff (fun _ => (.error 7 : Except Nat Nat)) (fun _ => true) 2
      = (3, .error 7) ∧
    retry_with_backoff (fun n => if n < 2 then (.error 1 : Except Nat Nat) else .ok 5)
      (fun _ => true) 3 = (3, .ok 5) ∧
    retry_with_backoff (fun _ => (.error 4 : Except Nat Nat)) (fun e => decide (e < 3)) 5
      = (1, .error 4) := by
  refine ⟨?_, ?_, ?_⟩
  · exact (C2_retry_with_backoff Nat Nat _ _ 2).2.1 (fun _ => 7) (fun _ => rfl) (fun _ => rfl)
  · exact (C2_retry_with_backoff Nat Nat _ _ 3).2.2.1 2 5 (by omega)
      (fun i hi => ⟨1, by rw [if_pos hi], rfl⟩) (by rw [if_neg (by omega)])
  · exact (C2_retry_with_backoff Nat Nat _ _ 5).2.2.2 0 4 (by omega)
      (fun i hi => absurd hi (by omega)) rfl (by decide)

/-- The seen-set dedup returns a sublist of its input. -/
theorem dedupSeen_sublist : ∀ (l seen : List String), List.Sublist (dedupSeen seen l) l := by
  intro l
  induction l with
  | nil => intro seen; exact List.Sublist.refl _
  | cons x xs ih =>
    intro seen
    rw [dedupSeen]
    by_cases h : x ∈ seen
    · rw [if_pos h]
      exact (ih seen).trans (List.sublist_cons_self x xs)
    · rw [if_neg h]
      exact (ih (x :: seen)).cons₂ x

/-- Membership in the seen-set dedup. -/
theorem mem_dedupSeen : ∀ (l seen : List String) (x : String),
    x ∈ dedupSeen seen l ↔ x ∈ l ∧ x ∉ seen := by
  intro l
  induction l with
  | nil => intro seen x; simp [dedupSeen]
  | cons y ys ih =>
    intro seen x
    rw [dedupSeen]
    by_cases h : y ∈ seen
    · rw [if_pos h, ih seen x]
      constructor
      · rintro ⟨h1, h2⟩
        exact ⟨List.mem_cons_of_mem _ h1, h2⟩
      · rintro ⟨h1, h2⟩
        rcases List.mem_cons.mp h1 with rfl | h1'
        · exact absurd h h2
        · exact ⟨h1', h2⟩
    · rw [if_neg h]
      constructor
      · intro hx
        rcases List.mem_cons.mp hx with rfl | hx'
        · exact ⟨List.mem_cons_self _ _, h⟩
        · obtain ⟨h1, h2⟩ := (ih (y :: seen) x).mp hx'
          exact ⟨List.mem_cons_of_mem _ h1, fun hc => h2 (List.mem_cons_of_mem _ hc)⟩
      · rintro ⟨h1, h2⟩
        rcases List.mem_cons.mp h1 with rfl | h1'
        · exact List.mem_cons_self _ _
        · by_cases hxy : x = y
          · subst hxy; exact List.mem_cons_self _ _
          · refine List.mem_cons_of_mem _ ((ih (y :: seen) x).mpr ⟨h1', ?_⟩)
            intro hc
            rcases List.mem_cons.mp hc with h' | h'
            · exact hxy h'
            · exact h2 h'

/-- The seen-set dedup has no duplicates. -/
theorem dedupSeen_nodup : ∀ (l seen : List String), (dedupSeen seen l).Nodup := by
  intro l
  induction l with
  | nil => intro seen; exact List.nodup_nil
  | cons y ys ih =>
    intro seen
    rw [dedupSeen]
    by_cases h : y ∈ seen
    · rw [if_pos h]; exact ih seen
    · rw [if_neg h]
      refine List.Nodup.cons ?_ (ih (y :: seen))
      intro hc
      obtain ⟨_, h2⟩ := (mem_dedupSeen ys (y :: seen) y).mp hc
      exact h2 (List.mem_cons_self _ _)

/-- The extend loop concatenates in consultation order. -/
theorem foldl_append_flatten : ∀ (lists : List (List String)) (acc : List String),
    lists.foldl (fun a g => a ++ g) acc = acc ++ lists.flatten := by
  intro lists
  induction lists with
  | nil => intro acc; simp
  | cons g gs ih =>
    intro acc
    rw [List.foldl_cons, ih]
    simp

/-- Claim C3 (amended): the per-artist genre merge of analyze_playlist.py
lines 189-192 (successive extend calls followed by list(dict.fromkeys(...)))
concatenates the consulted lists in consultation order and dedups by exact
string equality keeping first occurrence: the example merge gives exactly
["rock", "pop", "jazz"], the output has no duplicates, is a sublist of the
in-order concatenation (contribution order preserved) and contains exactly
the contributed strings.  The cross-source all_genres merge at line 264
(list(set(spotify_genres + discogs_genres))) dedups by exact string
equality and contains exactly the contributed genres, but, being an
unordered set, does not preserve the order in which sources contributed
them. -/
theorem C3_merge_genres (lists : List (List String)) (spotify discogs : List String) :
    merge_genre_lists [["rock", "pop"], ["pop", "jazz"]] = ["rock", "pop", "jazz"] ∧
    (merge_genre_lists lists).Nodup ∧
    List.Sublist (merge_genre_lists lists) lists.flatten ∧
    (∀ x, x ∈ merge_genre_lists lists ↔ x ∈ lists.flatten) ∧
    (∀ x, x ∈ all_genres_merge spotify discogs ↔ x ∈ spotify ++ discogs) ∧
    (all_genres_merge spotify discogs).val.Nodup := by
  have hml : merge_genre_lists lists = dedupSeen [] lists.flatten := by
    rw [merge_genre_lists, foldl_append_flatten]
    rfl
  refine ⟨by decide, ?_, ?_, ?_, ?_, ?_⟩
  · rw [hml]; exact dedupSeen_nodup _ _
  · rw [hml]; exact dedupSeen_sublist _ _
  · intro x
    rw [hml, mem_dedupSeen]
    simp
  · intro x
    rw [all_genres_merge]
    exact List.mem_toFinset
  · exact (all_genres_merge spotify discogs).nodup

/-- Strategy 1 is the first hit of its per-candidate attempt. -/
theorem strategy1Loop_eq_findSome (client : Client) (al : String) (t : ℚ) :
    ∀ parts, strategy1Loop client al t parts = parts.findSome? (fun part =>
      match client.searchRelease al part with
      | .ok (rel :: _) =>
        if is_similar rel.title al t ||
           rel.artists.any (fun a => is_similar a.name part t) then
          some (rel.genres.getD [], rel.styles.getD [])
        else none
      | _ => none) := by
  intro parts
  induction parts with
  | nil => rfl
  | cons part rest ih =>
    rw [List.findSome?_cons]
    cases hc : client.searchRelease al part with
    | error e =>
      rw [strategy1Loop, hc]
      exact ih
    | ok rs =>
      cases rs with
      | nil =>
        rw [strategy1Loop, hc]
        exact ih
      | cons rel tl =>
        rw [strategy1Loop, hc]
        by_cases hcond : (is_similar rel.title al t ||
            rel.artists.any (fun a => is_similar a.name part t)) = true
        · simp only [hcond, if_true]
        · simp only [Bool.not_eq_true] at hcond
          simp only [hcond, Bool.false_eq_true, if_false]
          exact ih

/-- Strategy 2 is the first hit of its per-candidate attempt. -/
theorem strategy2Loop_eq_findSome (client : Client) (track : String) (t : ℚ) :
    ∀ parts, strategy2Loop client track t parts = parts.findSome? (fun part =>
      match client.searchRelease track part with
      | .ok (rel :: _) =>
        if rel.artists.any (fun a => is_similar a.name part t) then
          some (rel.genres.getD [], rel.styles.getD [])
        else none
      | _ => none) := by
  intro parts
  induction parts with
  | nil => rfl
  | cons part rest ih =>
    rw [List.findSome?_cons]
    cases hc : client.searchRelease track part with
    | error e =>
      rw [strategy2Loop, hc]
      exact ih
    | ok rs =>
      cases rs with
      | nil =>
        rw [strategy2Loop, hc]
        exact ih
      | cons rel tl =>
        rw [strategy2Loop, hc]
        by_cases hcond : (rel.artists.any (fun a => is_similar a.name part t)) = true
        · simp only [hcond, if_true]
        · simp only [Bool.not_eq_true] at hcond
          simp only [hcond, Bool.false_eq_true, if_false]
          exact ih

/-- Strategy 3 is the first hit of its per-candidate attempt. -/
theorem strategy3Loop_eq_findSome (client : Client) (t : ℚ) :
    ∀ parts, strategy3Loop client t parts = parts.findSome? (fun part =>
      match client.searchArtist part with
      | .ok (art :: _) =>
        if is_similar art.name part t then
          match client.searchRelease "" art.name with
          | .ok (rel :: _) => some (rel.genres.getD [], rel.styles.getD [])
          | _ => none
        else none
      | _ => none) := by
  intro parts
  induction parts with
  | nil => rfl
  | cons part rest ih =>
    rw [List.findSome?_cons]
    cases hc : client.searchArtist part with
    | error e =>
      rw [strategy3Loop, hc]
      exact ih
    | ok as =>
      cases as with
      | nil =>
        rw [strategy3Loop, hc]
        exact ih
      | cons art tl =>
        rw [strategy3Loop, hc]
        by_cases hcond : (is_similar art.name part t) = true
        · simp only [hcond, if_true]
          cases hr : client.searchRelease "" art.name with
          | error e => exact ih
          | ok rs =>
            cases rs with
            | nil => exact ih
            | cons rel tl' => rfl
        · simp only [Bool.not_eq_true] at hcond
          simp only [hcond, Bool.false_eq_true, if_false]
          exact ih

/-- An erroring album query behaves exactly like an empty one. -/
theorem strategy1Loop_errorsToEmpty (client : Client) (al : String) (t : ℚ) :
    ∀ parts, strategy1Loop (errorsToEmpty client) al t parts = strategy1Loop client al t parts := by
  intro parts
  induction parts with
  | nil => rfl
  | cons part rest ih =>
    have he : (errorsToEmpty client).searchRelease al part =
        match client.searchRelease al part with
        | .error _ => .ok []
        | .ok rs => .ok rs := rfl
    cases hc : client.searchRelease al part with
    | error e =>
      rw [strategy1Loop, strategy1Loop, hc, he, hc]
      exact ih
    | ok rs =>
      cases rs with
      | nil =>
        rw [strategy1Loop, strategy1Loop, hc, he, hc]
        exact ih
      | cons rel tl =>
        rw [strategy1Loop, strategy1Loop, hc, he, hc]
        by_cases hcond : (is_similar rel.title al t ||
            rel.artists.any (fun a => is_similar a.name part t)) = true
        · simp only [hcond, if_true]
        · simp only [Bool.not_eq_true] at hcond
          simp only [hcond, Bool.false_eq_true, if_false]
          exact ih

/-- An erroring track query behaves exactly like an empty one. -/
theorem strategy2Loop_errorsToEmpty (client : Client) (track : String) (t : ℚ) :
    ∀ parts, strategy2Loop (errorsToEmpty client) track t parts
      = strategy2Loop client track t parts := by
  intro parts
  induction parts with
  | nil => rfl
  | cons part rest ih =>
    have he : (errorsToEmpty client).searchRelease track part =
        match client.searchRelease track part with
        | .error _ => .ok []
        | .ok rs => .ok rs := rfl
    cases hc : client.searchRelease track part with
    | error e =>
      rw [strategy2Loop, strategy2Loop, hc, he, hc]
      exact ih
    | ok rs =>
      cases rs with
      | nil =>
        rw [strategy2Loop, strategy2Loop, hc, he, hc]
        exact ih
      | cons rel tl =>
        rw [strategy2Loop, strategy2Loop, hc, he, hc]
        by_cases hcond : (rel.artists.any (fun a => is_similar a.name part t)) = true
        · simp only [hcond, if_true]
        · simp only [Bool.not_eq_true] at hcond
          simp only [hcond, Bool.false_eq_true, if_false]
          exact ih

/-- Erroring artist or release queries behave exactly like empty ones. -/
theorem strategy3Loop_errorsToEmpty (client : Client) (t : ℚ) :
    ∀ parts, strategy3Loop (errorsToEmpty client) t parts = strategy3Loop client t parts := by
  intro parts
  induction parts with
  | nil => rfl
  | cons part rest ih =>
    have he : (errorsToEmpty client).searchArtist part =
        match client.searchArtist part with
        | .error _ => .ok []
        | .ok as => .ok as := rfl
    cases hc : client.searchArtist part with
    | error e =>
      rw [strategy3Loop, strategy3Loop, hc, he, hc]
      exact ih
    | ok as =>
      cases as with
      | nil =>
        rw [strategy3Loop, strategy3Loop, hc, he, hc]
        exact ih
      | cons art tl =>
        rw [strategy3Loop, strategy3Loop, hc, he, hc]
        by_cases hcond : (is_similar art.name part t) = true
        · simp only [hcond, if_true]
          have he2 : (errorsToEmpty client).searchRelease "" art.name =
              match client.searchRelease "" art.name with
              | .error _ => .ok []
              | .ok rs => .ok rs := rfl
          cases hr : client.searchRelease "" art.name with
          | error e =>
            rw [he2, hr]
            exact ih
          | ok rs =>
            rw [he2, hr]
            cases rs with
            | nil => exact ih
            | cons rel tl' => rfl
        · simp only [Bool.not_eq_true] at hcond
          simp only [hcond, Bool.false_eq_true, if_false]
          exact ih

/-- With no release results, strategy 1 finds nothing. -/
theorem strategy1Loop_none (client : Client) (al : String) (t : ℚ)
    (h : ∀ q a, client.searchRelease q a = .ok []) :
    ∀ parts, strategy1Loop client al t parts = none := by
  intro parts
  induction parts with
  | nil => rfl
  | cons part rest ih =>
    rw [strategy1Loop, h al part]
    exact ih

/-- With no release results, strategy 2 finds nothing. -/
theorem strategy2Loop_none (client : Client) (track : String) (t : ℚ)
    (h : ∀ q a, client.searchRelease q a = .ok []) :
    ∀ parts, strategy2Loop client track t parts = none := by
  intro parts
  induction parts with
  | nil => rfl
  | cons part rest ih =>
    rw [strategy2Loop, h track part]
    exact ih

/-- With no artist results, strategy 3 finds nothing. -/
theorem strategy3Loop_none (client : Client) (t : ℚ)
    (h : ∀ q, client.searchArtist q = .ok []) :
    ∀ parts, strategy3Loop client t parts = none := by
  intro parts
  induction parts with
  | nil => rfl
  | cons part rest ih =>
    rw [strategy3Loop, h part]
    exact ih

/-- With always-raising release queries, strategy 1 finds nothing. -/
theorem strategy1Loop_none_err (client : Client) (al : String) (t : ℚ)
    (h : ∀ q a, ∃ e, client.searchRelease q a = .error e) :
    ∀ parts, strategy1Loop client al t parts = none := by
  intro parts
  induction parts with
  | nil => rfl
  | cons part rest ih =>
    obtain ⟨e, he⟩ := h al part
    rw [strategy1Loop, he]
    exact ih

/-- With always-raising release queries, strategy 2 finds nothing. -/
theorem strategy2Loop_none_err (client : Client) (track : String) (t : ℚ)
    (h : ∀ q a, ∃ e, client.searchRelease q a = .error e) :
    ∀ parts, strategy2Loop client track t parts = none := by
  intro parts
  induction parts with
  | nil => rfl
  | cons part rest ih =>
    obtain ⟨e, he⟩ := h track part
    rw [strategy2Loop, he]
    exact ih

/-- With always-raising artist queries, strategy 3 finds nothing. -/
theorem strategy3Loop_none_err (client : Client) (t : ℚ)
    (h : ∀ q, ∃ e, client.searchArtist q = .error e) :
    ∀ parts, strategy3Loop client t parts = none := by
  intro parts
  induction parts with
  | nil => rfl
  | cons part rest ih =>
    obtain ⟨e, he⟩ := h part
    rw [strategy3Loop, he]
    exact ih

/-- The nested first-success matches equal the orElse chain with default. -/
theorem chain3_eq (A B C : Option (List String × List String)) :
    (match A with
     | some r => r
     | none =>
       match B with
       | some r => r
       | none =>
         match C with
         | some r => r
         | none => ([], []))
    = ((A.orElse (fun _ => B)).orElse (fun _ => C)).getD ([], []) := by
  cases A <;> cases B <;> cases C <;> rfl

/-- Claim C1: the cascading resolver equals the spec-side resolver (strict
strategy priority, in-order candidate iteration per strategy, the stated
acceptance conditions), and on exhaustion (no strategy yields results) it
returns empty genre and style lists. -/
theorem C1_cascading_resolver (client : Client) (track_name artist_name : String)
    (album_name : Option String) (threshold : ℚ) :
    search_discogs_release client track_name artist_name album_name threshold =
      resolve_spec client track_name artist_name album_name threshold ∧
    ((∀ q a, client.searchRelease q a = .ok []) →
      (∀ q, client.searchArtist q = .ok []) →
      search_discogs_release client track_name artist_name album_name threshold
        = ([], [])) := by
  constructor
  · rw [search_discogs_release.eq_def, resolve_spec.eq_def]
    cases album_name with
    | none =>
      simp only []
      rw [strategy2Loop_eq_findSome, strategy3Loop_eq_findSome]
      exact chain3_eq none _ _
    | some al =>
      by_cases hal : al = ""
      · simp only [if_pos hal]
        rw [strategy2Loop_eq_findSome, strategy3Loop_eq_findSome]
        exact chain3_eq none _ _
      · simp only [if_neg hal]
        rw [strategy1Loop_eq_findSome, strategy2Loop_eq_findSome, strategy3Loop_eq_findSome]
        exact chain3_eq _ _ _
  · intro hrel hart
    rw [search_discogs_release.eq_def]
    cases album_name with
    | none =>
      rw [strategy2Loop_none client track_name threshold hrel,
        strategy3Loop_none client threshold hart]
    | some al =>
      by_cases hal : al = ""
      · simp only [if_pos hal]
        rw [strategy2Loop_none client track_name threshold hrel,
          strategy3Loop_none client threshold hart]
      · simp only [if_neg hal]
        rw [strategy1Loop_none client al threshold hrel,
          strategy2Loop_none client track_name threshold hrel,
          strategy3Loop_none client threshold hart]

/-- Witness for C1: a client with no results resolves to the empty result. -/
theorem C1_witness :
    search_discogs_release emptyClient "track" "artist" (some "album") 1 = ([], []) := by
  exact (C1_cascading_resolver emptyClient "track" "artist" (some "album") 1).2
    (fun _ _ => rfl) (fun _ => rfl)

/-- Claim C4: an unexpected error during one candidate attempt is swallowed:
replacing every raising client call by an empty-result call leaves the
resolver's output unchanged (the resolver just advances to the next
candidate/strategy), and with a client whose every call raises, the
resolver returns the empty-but-valid result instead of propagating. -/
theorem C4_errors_swallowed (client : Client) (track_name artist_name : String)
    (album_name : Option String) (threshold : ℚ) :
    search_discogs_release (errorsToEmpty client) track_name artist_name album_name threshold
      = search_discogs_release client track_name artist_name album_name threshold ∧
    search_discogs_release failClient track_name artist_name album_name threshold
      = ([], []) := by
  constructor
  · rw [search_discogs_release.eq_def, search_discogs_release.eq_def]
    cases album_name with
    | none =>
      rw [strategy2Loop_errorsToEmpty, strategy3Loop_errorsToEmpty]
    | some al =>
      by_cases hal : al = ""
      · simp only [if_pos hal]
        rw [strategy2Loop_errorsToEmpty, strategy3Loop_errorsToEmpty]
      · simp only [if_neg hal]
        rw [strategy1Loop_errorsToEmpty, strategy2Loop_errorsToEmpty,
          strategy3Loop_errorsToEmpty]
  · rw [search_discogs_release.eq_def]
    have hrel : ∀ q a, ∃ e, failClient.searchRelease q a = .error e :=
      fun _ _ => ⟨"boom", rfl⟩
    have hart : ∀ q, ∃ e, failClient.searchArtist q = .error e := fun _ => ⟨"boom", rfl⟩
    cases album_name with
    | none =>
      rw [strategy2Loop_none_err failClient track_name threshold hrel,
        strategy3Loop_none_err failClient threshold hart]
    | some al =>
      by_cases hal : al = ""
      · simp only [if_pos hal]
        rw [strategy2Loop_none_err failClient track_name threshold hrel,
          strategy3Loop_none_err failClient threshold hart]
      · simp only [if_neg hal]
        rw [strategy1Loop_none_err failClient al threshold hrel,
          strategy2Loop_none_err failClient track_name threshold hrel,
          strategy3Loop_none_err failClient threshold hart]

/-- In the ASCII range the extended keep-class agrees with the ASCII one. -/
theorem keepCharU_ascii {c : Char} (h : c.toNat < 128) : keepCharU c = keepChar c := by
  have h304 : decide (c.toNat = 304) = false := by
    simp only [decide_eq_false_iff_not]
    omega
  simp [keepCharU, isWordCharU, keepChar, h304]

/-- Away from U+0130 the case mapping is single-character. -/
theorem lowerStr_notU {c : Char} (h : c.toNat ≠ 304) : lowerStr c = [Char.toLower c] := by
  rw [lowerStr, if_neg h]

/-- On lists without U+0130 the one-to-many lowering is plain lowering. -/
theorem flatten_map_lowerStr :
    ∀ m : List Char, (∀ c ∈ m, c.toNat ≠ 304) →
      (m.map lowerStr).flatten = m.map Char.toLower := by
  intro m
  induction m with
  | nil => intro _; rfl
  | cons a as ih =>
    intro h
    rw [List.map_cons, List.map_cons, List.flatten_cons,
      lowerStr_notU (h a (List.mem_cons_self _ _)),
      ih (fun c hc => h c (List.mem_cons_of_mem _ hc))]
    rfl

/-- Kept characters are ASCII. -/
theorem keepChar_lt_128 {c : Char} (h : keepChar c = true) : c.toNat < 128 := by
  simp [keepChar, isWordChar, isSpaceChar] at h
  omega

/-- The ASCII normalizer produces only ASCII characters. -/
theorem cleanList_ascii (l : List Char) : ∀ c ∈ cleanList l, c.toNat < 128 := by
  intro c hc
  rw [cleanList] at hc
  obtain ⟨d, hd, rfl⟩ := List.mem_map.mp hc
  have hdlt : d.toNat < 128 := by
    rcases joinWords_mem _ d hd with h | ⟨w, hw, hdw⟩
    · subst h; decide
    · rcases wordsAux_mem _ [] w hw d hdw with h' | h'
      · exact keepChar_lt_128 (List.of_mem_filter h')
      · cases h'
  rw [toNat_toLower]
  by_cases hup : 65 ≤ d.toNat ∧ d.toNat ≤ 90
  · rw [if_pos hup]; omega
  · rw [if_neg hup]; omega

/-- On ASCII input the extended pipeline coincides with the ASCII one. -/
theorem cleanListU_ascii (l : List Char) (h : ∀ c ∈ l, c.toNat < 128) :
    cleanListU l = cleanList l := by
  rw [cleanListU, cleanList]
  rw [List.filter_congr (fun c hc => keepCharU_ascii (h c hc))]
  rw [flatten_map_lowerStr]
  intro c hc
  rcases joinWords_mem _ c hc with h' | ⟨w, hw, hcw⟩
  · subst h'; decide
  · rcases wordsAux_mem _ [] w hw c hcw with h'' | h''
    · have := h c (List.mem_of_mem_filter h'')
      omega
    · cases h''

/-- On ASCII input clean_text_uni is clean_text. -/
theorem clean_text_uni_ascii (s : String) (h : ∀ c ∈ s.data, c.toNat < 128) :
    clean_text_uni s = clean_text s := by
  rw [clean_text_uni, clean_text]
  by_cases hs : s = ""
  · rw [if_pos hs, if_pos hs]
  · rw [if_neg hs, if_neg hs, cleanListU_ascii s.data h]

/-- clean_text output is ASCII. -/
theorem clean_text_ascii (s : String) : ∀ c ∈ (clean_text s).data, c.toNat < 128 := by
  rw [clean_text]
  by_cases hs : s = ""
  · rw [if_pos hs]
    intro c hc
    cases hc
  · rw [if_neg hs]
    intro c hc
    exact cleanList_ascii s.data c hc

/-- Claim C9 counterexample: the program's normalizer is not idempotent.
Python's str.lower() maps U+0130 to the two characters "i" ++ U+0307 and is
applied after the re.sub filter, while the combining mark U+0307 is not a
word character; so normalize('İ') keeps the mark and re-normalizing strips
it, giving a different string. -/
theorem C9_counterexample :
    clean_text_uni "İ" = "i̇" ∧
    clean_text_uni (clean_text_uni "İ") = "i" ∧
    clean_text_uni (clean_text_uni "İ") ≠ clean_text_uni "İ" := by
  exact ⟨by decide, by decide, by decide⟩

/-- Claim C9 (amended): the text normalizer is idempotent on every string
whose characters are ASCII (where the case mapping is one-to-one and the
word class is stable under lowering); on such input the Unicode-extended
model also coincides with the ASCII model. -/
theorem C9_clean_text_idempotent_on_ascii (s : String)
    (h : ∀ c ∈ s.data, c.toNat < 128) :
    clean_text_uni (clean_text_uni s) = clean_text_uni s ∧
    clean_text_uni s = clean_text s := by
  have h2 := clean_text_uni_ascii s h
  refine ⟨?_, h2⟩
  rw [h2, clean_text_uni_ascii (clean_text s) (clean_text_ascii s), clean_text_idem]

/-- Witness for C9 at a concrete ASCII input. -/
theorem C9_witness :
    (∀ c ∈ ("Ab  c!" : String).data, c.toNat < 128) ∧
    clean_text_uni (clean_text_uni "Ab  c!") = clean_text_uni "Ab  c!" := by
  refine ⟨by decide, ?_⟩
  exact (C9_clean_text_idempotent_on_ascii "Ab  c!" (by decide)).1

/-- Claim C3 counterexample: the cited cross-source merge at line 264 is an
unordered set merge: both contribution orders of the example lists produce
the same merged value, while the claim's first-occurrence order demands the
two distinct outputs ["rock","pop","jazz"] and ["pop","jazz","rock"]; so no
behavior of list(set(spotify_genres + discogs_genres)) can satisfy the
claim as stated. -/
theorem C3_counterexample :
    all_genres_merge ["rock", "pop"] ["pop", "jazz"]
      = all_genres_merge ["pop", "jazz"] ["rock", "pop"] ∧
    (["rock", "pop", "jazz"] : List String) ≠ ["pop", "jazz", "rock"] := by
  exact ⟨by decide, by decide⟩
